import Mathlib

/-!
Verification of the field-booking subsystem of the Ai-Football-Platform-Backend
repository (Django).  The definitions below are shallow embeddings of the
Python source: times are modelled as integers (minutes for scheduling logic,
seconds where the cost calculator divides by 3600), money as exact rationals,
and Python `float` arithmetic — where the source actually uses it — as IEEE
binary64 rounding made explicit on rationals.
-/

namespace FootballPlatform

/-- Booking status, from `FieldBooking.BOOKING_STATUS` in `apps/bookings/models.py`. -/
inductive BStatus
  | pending
  | confirmed
  | cancelled
  | completed
deriving DecidableEq, Repr, Fintype

/-- The part of the `Field` model relevant to availability and cost:
`is_active` (soft-delete flag from `BaseModel`), `is_available`, `hourly_rate`. -/
structure Field where
  is_active : Bool
  is_available : Bool
  hourly_rate : ℚ
deriving DecidableEq, Repr

/-- A stored `FieldBooking` row restricted to the attributes the booking logic
reads: primary key, status and the time window.  Times are minutes on a global
timeline (1440 minutes per calendar day). -/
structure BookingRec where
  id : ℕ
  status : BStatus
  start_time : ℤ
  end_time : ℤ
deriving DecidableEq, Repr

/-- A suggested alternative slot, as produced by
`BookingConflictChecker._generate_time_suggestions`. -/
structure Suggestion where
  start_time : ℤ
  end_time : ℤ
deriving DecidableEq, Repr

/-- Result dictionary of `BookingConflictChecker.check_field_availability`. -/
structure AvailabilityResult where
  available : Bool
  conflicts : List BookingRec
  suggestions : List Suggestion
  reason : String
deriving DecidableEq, Repr

/-- `status__in=["confirmed", "pending"]`: only these statuses compete for a slot. -/
def isCompetitor (b : BookingRec) : Bool :=
  b.status = BStatus.confirmed || b.status = BStatus.pending

/-- Overlap filter of `BookingConflictChecker.check_field_availability`
(`apps/bookings/utils.py`): `start_time__lt=end_time, end_time__gt=start_time`,
i.e. existing.start < e AND existing.end > s. -/
def checkerOverlap (s e : ℤ) (bs be : ℤ) : Bool :=
  bs < e && be > s

/-- The four-disjunct overlap filter of
`FieldBookingSerializer._check_booking_conflicts` (`apps/bookings/serializers.py`),
with `(bs, be)` the existing booking's window and `(s, e)` the new one:
starts during / ends during / new contains existing / existing contains new. -/
def serializerOverlap (s e : ℤ) (bs be : ℤ) : Bool :=
  (bs ≤ s && be > s) || (bs < e && be ≥ e) || (bs ≥ s && be ≤ e) || (bs ≤ s && be ≥ e)

/-- Calendar day of a timestamp in minutes (`datetime.date()`); floor
division, matching date arithmetic also before the epoch. -/
def dayIndex (t : ℤ) : ℤ := t.fdiv 1440

/-- `start_time.replace(hour=8, minute=0, second=0, microsecond=0)`. -/
def dayStart8 (t : ℤ) : ℤ := dayIndex t * 1440 + 480

/-- `start_time.replace(hour=22, minute=0, second=0, microsecond=0)`. -/
def dayEnd22 (t : ℤ) : ℤ := dayIndex t * 1440 + 1320

/-- `start_time__date=start_time.date()`: booking starts on the requested day. -/
def sameDay (t : ℤ) (b : BookingRec) : Bool := dayIndex b.start_time = dayIndex t

/-- State of the suggestion-generation loop: accumulated suggestions, the
moving cursor (`current_time`), and whether the `break` was taken. -/
structure ScanState where
  suggestions : List Suggestion
  cursor : ℤ
  done : Bool
deriving DecidableEq, Repr

/-- One iteration of the `for booking in day_bookings` loop of
`_generate_time_suggestions`.  The Python `break` (taken right after the third
append, before the cursor update) is modelled by the `done` flag freezing the
state. -/
def scanStep (dur : ℤ) (st : ScanState) (b : BookingRec) : ScanState :=
  if st.done then st
  else if b.start_time > st.cursor ∧ b.start_time - st.cursor ≥ dur then
    let acc2 := st.suggestions ++ [⟨st.cursor, st.cursor + dur⟩]
    if 3 ≤ acc2.length then ⟨acc2, st.cursor, true⟩
    else ⟨acc2, max st.cursor b.end_time, false⟩
  else ⟨st.suggestions, max st.cursor b.end_time, false⟩

/-- `BookingConflictChecker._generate_time_suggestions` applied to an already
day-filtered, start-ordered list of bookings: walk the cursor from 08:00,
emit a gap suggestion of exactly the requested duration whenever it fits
before the next booking, stop at three, then check the gap to 22:00 (the
final `if` has no effect after the break since three suggestions exist). -/
def generateTimeSuggestions (s e : ℤ) (dayBookings : List BookingRec) : List Suggestion :=
  let dur := e - s
  let st := dayBookings.foldl (scanStep dur) ⟨[], dayStart8 s, false⟩
  if st.cursor + dur ≤ dayEnd22 s ∧ st.suggestions.length < 3 then
    st.suggestions ++ [⟨st.cursor, st.cursor + dur⟩]
  else st.suggestions

/-- `order_by("start_time")` on the day query; the database may return any
start-ordered permutation, the model fixes insertion sort as one admissible
order (determinism across admissible orders is proved separately). -/
def sortByStart (l : List BookingRec) : List BookingRec :=
  l.insertionSort (fun a b => a.start_time ≤ b.start_time)

/-- Python truthiness of the `exclude_booking_id` parameter:
`if exclude_booking_id:` is `False` for `None` and for `0`. -/
def exclTruthy : Option ℕ → Bool
  | none => false
  | some i => i ≠ 0

/-- The conflicts queryset of `check_field_availability`: pending/confirmed
bookings overlapping the half-open window, minus the excluded id (when that
parameter is truthy). -/
def cfaConflicts (bookings : List BookingRec) (s e : ℤ) (excl : Option ℕ) :
    List BookingRec :=
  let conflicts0 := bookings.filter fun b =>
    isCompetitor b && checkerOverlap s e b.start_time b.end_time
  if exclTruthy excl then conflicts0.filter (fun b => some b.id ≠ excl)
  else conflicts0

/-- The day queryset feeding `_generate_time_suggestions`: pending/confirmed
bookings starting on the requested day, ordered by start time. -/
def dayCompetitors (bookings : List BookingRec) (s : ℤ) : List BookingRec :=
  sortByStart (bookings.filter fun b => isCompetitor b && sameDay s b)

/-- `BookingConflictChecker.check_field_availability` (`apps/bookings/utils.py`):
inactive/unavailable field short-circuits; otherwise pending/confirmed bookings
overlapping the half-open window (minus the excluded id) are conflicts, and
suggestions are generated from the same-day pending/confirmed bookings. -/
def check_field_availability (f : Field) (bookings : List BookingRec)
    (s e : ℤ) (excl : Option ℕ) : AvailabilityResult :=
  if ¬ f.is_active ∨ ¬ f.is_available then
    ⟨false, [], [], "Field is not available for booking"⟩
  else if cfaConflicts bookings s e excl ≠ [] then
    ⟨false, cfaConflicts bookings s e excl,
      generateTimeSuggestions s e (dayCompetitors bookings s),
      "Time slot conflicts with existing bookings"⟩
  else
    ⟨true, [], [], "Field is available for the requested time"⟩

/-- The `available` flag computed by the GET `FieldViewSet.availability`
endpoint (`apps/bookings/views.py`): no overlapping pending/confirmed booking
AND `field.is_available` — `field.is_active` is never consulted. -/
def availabilityEndpointAvailable (f : Field) (bookings : List BookingRec)
    (s e : ℤ) : Bool :=
  !(bookings.any fun b => isCompetitor b && checkerOverlap s e b.start_time b.end_time)
    && f.is_available

/-- The literal status strings stored in the `status` CharField. -/
def statusName : BStatus → String
  | BStatus.pending => "pending"
  | BStatus.confirmed => "confirmed"
  | BStatus.cancelled => "cancelled"
  | BStatus.completed => "completed"

/-- `FieldBookingViewSet.confirm` (`apps/bookings/views.py`): only a pending
booking is confirmed; otherwise a 400 naming the current status. -/
def confirmAction (st : BStatus) : Except String BStatus :=
  if st ≠ BStatus.pending then
    Except.error ("Cannot confirm booking with status \x27" ++ statusName st ++ "\x27")
  else Except.ok BStatus.confirmed

/-- `FieldBookingViewSet.cancel`: rejected only when the status is already
cancelled or completed; no 2-hour-window check. -/
def cancelAction (st : BStatus) : Except String BStatus :=
  if st = BStatus.cancelled ∨ st = BStatus.completed then
    Except.error ("Cannot cancel booking with status \x27" ++ statusName st ++ "\x27")
  else Except.ok BStatus.cancelled

/-- `FieldBookingViewSet.complete`: only a confirmed booking is completed. -/
def completeAction (st : BStatus) : Except String BStatus :=
  if st ≠ BStatus.confirmed then
    Except.error ("Cannot complete booking with status \x27" ++ statusName st ++ "\x27")
  else Except.ok BStatus.completed

/-- The three status-transition endpoints. -/
inductive ActionKind
  | confirm
  | cancel
  | complete
deriving DecidableEq, Repr, Fintype

/-- Effect of one action on the stored status: the new status on success,
the unchanged status on a 400 rejection. -/
def stepStatus (st : BStatus) (a : ActionKind) : BStatus :=
  match (match a with
    | ActionKind.confirm => confirmAction st
    | ActionKind.cancel => cancelAction st
    | ActionKind.complete => completeAction st) with
  | Except.ok st2 => st2
  | Except.error _ => st

/-- `FieldBooking.can_cancel` model property (`apps/bookings/models.py`):
`start_time > timezone.now() and status not in ["cancelled", "completed"]`.
Note: no 2-hour window here. -/
def model_can_cancel (st : BStatus) (start_time now : ℤ) : Bool :=
  start_time > now && !(st = BStatus.cancelled || st = BStatus.completed)

/-- `FieldBooking.can_modify` model property:
`start_time > timezone.now() and status == "pending"`.  No 4-hour window. -/
def model_can_modify (st : BStatus) (start_time now : ℤ) : Bool :=
  start_time > now && st = BStatus.pending

/-- `FieldBookingSerializer.get_can_cancel` (`apps/bookings/serializers.py`):
false for cancelled/completed, false when `start_time <= now + 2 hours`. -/
def serializer_can_cancel (st : BStatus) (start_time now : ℤ) : Bool :=
  if st = BStatus.cancelled ∨ st = BStatus.completed then false
  else if start_time ≤ now + 120 then false
  else true

/-- `FieldBookingSerializer.get_can_modify`: false for cancelled/completed,
false when `start_time <= now + 4 hours`.  Note: the status test is
`in ["cancelled", "completed"]`, not `== "pending"`. -/
def serializer_can_modify (st : BStatus) (start_time now : ℤ) : Bool :=
  if st = BStatus.cancelled ∨ st = BStatus.completed then false
  else if start_time ≤ now + 240 then false
  else true

/-- Conflict queryset of `FieldBookingSerializer._check_booking_conflicts`:
pending/confirmed bookings matching the four-disjunct overlap filter, minus
the booking under update (`self.instance`). -/
def serializerConflicts (bookings : List BookingRec) (instanceId : Option ℕ)
    (s e : ℤ) : List BookingRec :=
  let queryset : List BookingRec := match instanceId with
    | some i => bookings.filter (fun b => b.id ≠ i)
    | none => bookings
  queryset.filter fun b =>
    isCompetitor b && serializerOverlap s e b.start_time b.end_time

/-- Time/field/conflict part of `FieldBookingSerializer.validate`, in source
order: inverted window, minimum 1 hour, maximum 8 hours, start in the future,
90-day horizon, field availability, then conflicts.  Times in minutes.  The
`booked_by` authorisation branch, which never inspects the window, is the
claim's precondition (a permitted requester) and is modelled as passing. -/
def serializerValidate (f : Field) (bookings : List BookingRec)
    (instanceId : Option ℕ) (now s e : ℤ) : Except String Unit :=
  if e ≤ s then Except.error "End time must be after start time."
  else if e - s < 60 then Except.error "Minimum booking duration is 1 hour."
  else if e - s > 480 then Except.error "Maximum booking duration is 8 hours."
  else if s ≤ now then Except.error "Booking start time must be in the future."
  else if s > now + 90 * 1440 then
    Except.error "Bookings can only be made up to 3 months in advance."
  else if ¬ f.is_available ∨ ¬ f.is_active then
    Except.error "This field is not available for booking."
  else if serializerConflicts bookings instanceId s e ≠ [] then
    Except.error "Time conflict detected."
  else Except.ok ()

/-- A non-negative rational as an unreduced numerator/denominator pair; this
representation keeps the IEEE-float model inside kernel-computable `Nat`
arithmetic.  All constructed denominators are positive. -/
abbrev Frac := ℕ × ℕ

/-- Value equality of unreduced fractions (cross multiplication). -/
def fracEqB (a b : Frac) : Bool := a.1 * b.2 == b.1 * a.2

/-- Floor of log₂ for 1 ≤ n < 2^256, by direct counting. -/
def natLog2 (n : ℕ) : ℕ := ((List.range 256).filter fun k => 2 ^ (k + 1) ≤ n).length

/-- Floor of log₁₀ for 1 ≤ n < 10^128, by direct counting. -/
def natLog10 (n : ℕ) : ℕ := ((List.range 128).filter fun k => 10 ^ (k + 1) ≤ n).length

/-- Is 2^e ≤ x, for a signed exponent? -/
def pow2LeFrac (e : ℤ) (x : Frac) : Bool :=
  if 0 ≤ e then 2 ^ e.toNat * x.2 ≤ x.1 else x.2 ≤ x.1 * 2 ^ (-e).toNat

/-- Is 10^e ≤ x, for a signed exponent? -/
def pow10LeFrac (e : ℤ) (x : Frac) : Bool :=
  if 0 ≤ e then 10 ^ e.toNat * x.2 ≤ x.1 else x.2 ≤ x.1 * 10 ^ (-e).toNat

/-- For x > 0, the exponent e with 2^e ≤ x < 2^(e+1). -/
def fracLog2 (x : Frac) : ℤ :=
  let d : ℤ := (natLog2 x.1 : ℤ) - (natLog2 x.2 : ℤ)
  if pow2LeFrac d x then d else d - 1

/-- For x > 0, the exponent k with 10^k ≤ x < 10^(k+1). -/
def fracLog10 (x : Frac) : ℤ :=
  let d : ℤ := (natLog10 x.1 : ℤ) - (natLog10 x.2 : ℤ)
  if pow10LeFrac d x then d else d - 1

/-- x · 2^e as an unreduced fraction. -/
def scaleByPow2 (e : ℤ) (x : Frac) : Frac :=
  if 0 ≤ e then (x.1 * 2 ^ e.toNat, x.2) else (x.1, x.2 * 2 ^ (-e).toNat)

/-- x · 10^e as an unreduced fraction. -/
def scaleByPow10 (e : ℤ) (x : Frac) : Frac :=
  if 0 ≤ e then (x.1 * 10 ^ e.toNat, x.2) else (x.1, x.2 * 10 ^ (-e).toNat)

/-- m · 2^e as an unreduced fraction. -/
def mulPow2 (m : ℕ) (e : ℤ) : Frac :=
  if 0 ≤ e then (m * 2 ^ e.toNat, 1) else (m, 2 ^ (-e).toNat)

/-- m · 10^e as an unreduced fraction. -/
def mulPow10 (m : ℕ) (e : ℤ) : Frac :=
  if 0 ≤ e then (m * 10 ^ e.toNat, 1) else (m, 10 ^ (-e).toNat)

/-- Round a non-negative fraction to the nearest natural, ties to even (the
rounding of IEEE binary64 arithmetic and of correctly-rounded conversions). -/
def fracRound (x : Frac) : ℕ :=
  let f := x.1 / x.2
  let r := x.1 % x.2
  if 2 * r < x.2 then f
  else if x.2 < 2 * r then f + 1
  else if f % 2 = 0 then f else f + 1

/-- IEEE binary64 round-to-nearest-even of a non-negative rational, made
explicit: the value is scaled to a 53-bit significand in [2^52, 2^53), rounded
half-to-even, and scaled back.  Overflow and subnormals cannot occur at the
magnitudes of a booking duration, so the normal-range formula is the whole
story. -/
def roundB64 (x : Frac) : Frac :=
  if x.1 = 0 then (0, 1)
  else
    let e := fracLog2 x
    mulPow2 (fracRound (scaleByPow2 (52 - e) x)) (e - 52)

/-- The positive value x rounded to p significant decimal digits, ties to
even. -/
def decRound (p : ℕ) (x : Frac) : Frac :=
  let k := fracLog10 x
  mulPow10 (fracRound (scaleByPow10 ((p : ℤ) - 1 - k) x)) (k - (p : ℤ) + 1)

/-- Python `str`/`repr` of a non-negative binary64 value x, as the exact
rational the digit string denotes: the shortest correctly-rounded decimal that
reads back as x (David Gay shortest-repr semantics, as in CPython); 1 to 17
significant digits are tried and 17 always round-trips. -/
def floatStr (x : Frac) : Frac :=
  match (List.range 17).findSome? (fun i =>
    let c := decRound (i + 1) x
    if fracEqB (roundB64 c) x then some c else none) with
  | some c => c
  | none => decRound 17 x

/-- `duration.total_seconds() / 3600` in `FieldBooking.duration_hours`,
`FieldBookingSerializer.create` and `.update`: a float division.  For a
duration of a whole number s of seconds, `total_seconds()` is exactly s, so
the hours value is the binary64 rounding of s/3600. -/
def pyDurationHours (s : ℕ) : Frac := roundB64 (s, 3600)

/-- `Decimal(str(hours))` for a non-negative whole-second duration, as an
exact rational. -/
def pyHoursDecimal (s : ℕ) : ℚ :=
  let f := floatStr (pyDurationHours s)
  (f.1 : ℚ) / (f.2 : ℚ)

/-- `Decimal(str(hours)) * field.hourly_rate`, the cost computation shared by
`FieldBooking.calculate_total_cost` and the serializer create/update paths
(`hours = duration.total_seconds() / 3600`; `Decimal(str(hours)) *
field.hourly_rate`).  The sign case follows IEEE symmetry; the final Decimal
multiplication is exact (the default 28-digit context never rounds at these
operand sizes: at most 17 significant digits times a `max_digits=8` rate). -/
def pyTotalCost (s : ℤ) (rate : ℚ) : ℚ :=
  (if s < 0 then -pyHoursDecimal s.natAbs else pyHoursDecimal s.natAbs) * rate

/-- The cost described by the specification: duration in hours as an exact
rational, times the hourly rate, no floating point anywhere. -/
def exactTotalCost (s : ℤ) (rate : ℚ) : ℚ := (s : ℚ) / 3600 * rate

/-- A stored booking as the update path sees it: current field rate, window
(in seconds for the cost computation) and stored cost. -/
structure BookingInst where
  rate : ℚ
  start_time : ℤ
  end_time : ℤ
  total_cost : ℚ
deriving DecidableEq, Repr

/-- `FieldBookingSerializer.update`: `field`, `start_time`, `end_time` are
taken from the validated data when present, and `total_cost` is recomputed
exactly when at least one of those three keys is present. -/
def serializerUpdate (inst : BookingInst) (newRate : Option ℚ)
    (newS newE : Option ℤ) : BookingInst :=
  let rate := newRate.getD inst.rate
  let s := newS.getD inst.start_time
  let e := newE.getD inst.end_time
  let cost := if newRate.isSome || newS.isSome || newE.isSome
    then pyTotalCost (e - s) rate
    else inst.total_cost
  ⟨rate, s, e, cost⟩

/-- Round a rational to the nearest integer, ties to even (Python `round`). -/
def roundHalfEvenQ (q : ℚ) : ℤ :=
  let f := ⌊q⌋
  if q - f < 1 / 2 then f
  else if 1 / 2 < q - f then f + 1
  else if f % 2 = 0 then f else f + 1

/-- Python `round(x, 2)` (banker's rounding) on an exact value. -/
def roundTo2 (q : ℚ) : ℚ := (roundHalfEvenQ (q * 100) : ℚ) / 100

/-- Result dictionary of `BookingStatisticsCalculator.get_field_utilization_rate`. -/
structure UtilizationResult where
  total_booked_hours : ℚ
  total_available_hours : ℤ
  utilization_rate : ℚ
  booking_count : ℕ
deriving DecidableEq, Repr

/-- Booking filter of `get_field_utilization_rate` for `datetime.date` bounds
(given as day numbers): confirmed/completed bookings whose start date lies in
the inclusive range; an absent bound filters nothing. -/
def utilizationCounted (bs : List BookingRec) (sd ed : Option ℤ) : List BookingRec :=
  bs.filter fun b =>
    (b.status = BStatus.confirmed || b.status = BStatus.completed)
    && (match sd with | some d => decide (d ≤ dayIndex b.start_time) | none => true)
    && (match ed with | some d => decide (dayIndex b.start_time ≤ d) | none => true)

/-- `BookingStatisticsCalculator.get_field_utilization_rate`
(`apps/bookings/utils.py`) with `datetime.date` bounds: sum the counted
bookings' durations, convert to hours, divide by 14 available hours per day
of the inclusive range (30 days when either bound is missing), times 100,
rounded to 2 decimals; rate 0 when the denominator is not positive.  The
float sums and divisions are exact at these magnitudes and modelled exactly;
times are minutes, so hours = minutes/60. -/
def get_field_utilization_rate (bs : List BookingRec) (sd ed : Option ℤ) :
    UtilizationResult :=
  let counted := utilizationCounted bs sd ed
  let totalBookedMinutes : ℤ := (counted.map fun b => b.end_time - b.start_time).sum
  let totalBookedHours : ℚ := (totalBookedMinutes : ℚ) / 60
  let days : ℤ := match sd, ed with
    | some a, some b => b - a + 1
    | _, _ => 30
  let totalAvailableHours := days * 14
  let rate : ℚ := if totalAvailableHours > 0
    then totalBookedHours / (totalAvailableHours : ℚ) * 100
    else 0
  ⟨roundTo2 totalBookedHours, totalAvailableHours, roundTo2 rate, counted.length⟩

section Theorems

set_option maxRecDepth 1000000

/-- C7: for windows with s1 < e1 and s2 < e2, the serializer's four-disjunct
overlap predicate agrees with the conflict checker's two-inequality half-open
rule, and the latter is symmetric in the two intervals. -/
theorem overlap_predicates_equivalent (s1 e1 s2 e2 : ℤ)
    (h1 : s1 < e1) (h2 : s2 < e2) :
    serializerOverlap s1 e1 s2 e2 = checkerOverlap s1 e1 s2 e2 ∧
    checkerOverlap s1 e1 s2 e2 = checkerOverlap s2 e2 s1 e1 := by
  have key : ∀ a b : Bool, (a = true ↔ b = true) → a = b := by decide
  refine ⟨key _ _ ?_, key _ _ ?_⟩ <;>
  · simp only [serializerOverlap, checkerOverlap, Bool.or_eq_true, Bool.and_eq_true,
      decide_eq_true_eq]
    omega

/-- Witness for C7 at the concrete intervals [0,2) and [1,3). -/
theorem overlap_predicates_equivalent_witness :
    serializerOverlap 0 2 1 3 = checkerOverlap 0 2 1 3 ∧
    checkerOverlap 0 2 1 3 = checkerOverlap 1 3 0 2 :=
  overlap_predicates_equivalent 0 2 1 3 (by decide) (by decide)

/-- C5 counterexample: a pending booking starting 60 minutes from now has
`FieldBooking.can_cancel = True` although `start_time > now + 2h` fails, so
the claimed two-sided characterisation is false for the model property. -/
theorem can_cancel_model_counterexample :
    ¬(model_can_cancel BStatus.pending 60 0 = true ↔
      ((BStatus.pending ≠ BStatus.cancelled ∧ BStatus.pending ≠ BStatus.completed) ∧
        (60 : ℤ) > 0 + 120)) := by
  decide

/-- C5 amended: the serializer field `get_can_cancel` is true iff the status
is neither cancelled nor completed and `start_time > now + 2h`; the model
property `FieldBooking.can_cancel` instead requires only `start_time > now`,
with no 2-hour window. -/
theorem can_cancel_characterisation :
    ∀ (st : BStatus) (start_time now : ℤ),
      (serializer_can_cancel st start_time now = true ↔
        (st ≠ BStatus.cancelled ∧ st ≠ BStatus.completed) ∧ start_time > now + 120) ∧
      (model_can_cancel st start_time now = true ↔
        (st ≠ BStatus.cancelled ∧ st ≠ BStatus.completed) ∧ start_time > now) := by
  intro st s n
  cases st <;>
    simp [serializer_can_cancel, model_can_cancel]

/-- C6 counterexample: a confirmed booking starting 300 minutes from now has
`get_can_modify = True` in the serializer, although the claim says can_modify
is false for every confirmed booking. -/
theorem can_modify_serializer_counterexample :
    ¬(serializer_can_modify BStatus.confirmed 300 0 = true ↔
      (BStatus.confirmed = BStatus.pending ∧ (300 : ℤ) > 0 + 240)) := by
  decide

/-- C6 amended: the serializer field `get_can_modify` is true iff the status
is neither cancelled nor completed (so also for confirmed bookings) and
`start_time > now + 4h`; the model property `FieldBooking.can_modify`
requires status pending and only `start_time > now`, with no 4-hour window. -/
theorem can_modify_characterisation :
    ∀ (st : BStatus) (start_time now : ℤ),
      (serializer_can_modify st start_time now = true ↔
        (st ≠ BStatus.cancelled ∧ st ≠ BStatus.completed) ∧ start_time > now + 240) ∧
      (model_can_modify st start_time now = true ↔
        st = BStatus.pending ∧ start_time > now) := by
  intro st s n
  cases st <;>
    simp [serializer_can_modify, model_can_modify]

/-- C2: confirm succeeds (to confirmed) iff the status is pending, complete
succeeds (to completed) iff confirmed, cancel succeeds (to cancelled) iff the
status is neither cancelled nor completed — with no time-window check; every
rejection leaves the status unchanged and carries an error naming the current
status; consequently no sequence of actions moves a cancelled or completed
booking. -/
theorem booking_lifecycle_guards :
    (∀ st, (confirmAction st = Except.ok BStatus.confirmed ↔ st = BStatus.pending) ∧
      (st ≠ BStatus.pending → confirmAction st =
        Except.error ("Cannot confirm booking with status \x27" ++ statusName st ++ "\x27") ∧
        stepStatus st ActionKind.confirm = st)) ∧
    (∀ st, (completeAction st = Except.ok BStatus.completed ↔ st = BStatus.confirmed) ∧
      (st ≠ BStatus.confirmed → completeAction st =
        Except.error ("Cannot complete booking with status \x27" ++ statusName st ++ "\x27") ∧
        stepStatus st ActionKind.complete = st)) ∧
    (∀ st, (cancelAction st = Except.ok BStatus.cancelled ↔
        (st ≠ BStatus.cancelled ∧ st ≠ BStatus.completed)) ∧
      ((st = BStatus.cancelled ∨ st = BStatus.completed) → cancelAction st =
        Except.error ("Cannot cancel booking with status \x27" ++ statusName st ++ "\x27") ∧
        stepStatus st ActionKind.cancel = st)) ∧
    (∀ st, (st = BStatus.cancelled ∨ st = BStatus.completed) →
      ∀ acts : List ActionKind, acts.foldl stepStatus st = st) := by
  have hstep : ∀ st a, (st = BStatus.cancelled ∨ st = BStatus.completed) →
      stepStatus st a = st := by
    intro st a hst
    rcases hst with h | h <;> subst h <;> cases a <;>
      simp [stepStatus, confirmAction, cancelAction, completeAction]
  refine ⟨?_, ?_, ?_, ?_⟩
  · intro st
    cases st <;> simp [confirmAction, stepStatus, statusName]
  · intro st
    cases st <;> simp [completeAction, stepStatus, statusName]
  · intro st
    cases st <;> simp [cancelAction, stepStatus, statusName]
  · intro st hst acts
    induction acts with
    | nil => rfl
    | cons a l ih =>
      have hc : List.foldl stepStatus st (a :: l) =
          List.foldl stepStatus (stepStatus st a) l := rfl
      rw [hc, hstep st a hst, ih]

/-- Witness for C2: confirming a confirmed booking is rejected with the
status named, and the terminal statuses absorb every action sequence. -/
theorem booking_lifecycle_guards_witness :
    (confirmAction BStatus.confirmed =
      Except.error ("Cannot confirm booking with status \x27" ++
        statusName BStatus.confirmed ++ "\x27") ∧
      stepStatus BStatus.confirmed ActionKind.confirm = BStatus.confirmed) ∧
    [ActionKind.confirm, ActionKind.cancel, ActionKind.complete].foldl
      stepStatus BStatus.cancelled = BStatus.cancelled :=
  ⟨(booking_lifecycle_guards.1 BStatus.confirmed).2 (by decide),
    booking_lifecycle_guards.2.2.2 BStatus.cancelled (Or.inl rfl)
      [ActionKind.confirm, ActionKind.cancel, ActionKind.complete]⟩

/-- Per-booking reading of the checker's status/overlap filter. -/
lemma competitor_overlap_iff (s e : ℤ) (b : BookingRec) :
    ((isCompetitor b && checkerOverlap s e b.start_time b.end_time) = true) ↔
      ((b.status = BStatus.pending ∨ b.status = BStatus.confirmed) ∧
        (b.start_time < e ∧ s < b.end_time)) := by
  simp only [isCompetitor, checkerOverlap, Bool.and_eq_true, Bool.or_eq_true,
    decide_eq_true_eq, gt_iff_lt]
  tauto

/-- A member of the conflicts queryset is a stored booking satisfying the
status/overlap filter. -/
lemma mem_cfaConflicts {bookings : List BookingRec} {s e : ℤ} {excl : Option ℕ}
    {b : BookingRec} (h : b ∈ cfaConflicts bookings s e excl) :
    b ∈ bookings ∧
      (isCompetitor b && checkerOverlap s e b.start_time b.end_time) = true := by
  unfold cfaConflicts at h
  split_ifs at h with hx
  · exact List.mem_filter.mp (List.mem_filter.mp h).1
  · exact List.mem_filter.mp h

/-- Membership characterisation of the conflicts queryset. -/
lemma mem_cfaConflicts_iff {bookings : List BookingRec} {s e : ℤ}
    {excl : Option ℕ} {b : BookingRec} :
    b ∈ cfaConflicts bookings s e excl ↔
      (b ∈ bookings ∧
        (isCompetitor b && checkerOverlap s e b.start_time b.end_time) = true ∧
        (exclTruthy excl = true → some b.id ≠ excl)) := by
  unfold cfaConflicts
  split_ifs with hx
  · simp only [List.mem_filter]
    constructor
    · rintro ⟨⟨h1, h2⟩, h3⟩
      exact ⟨h1, h2, fun _ => by simpa using h3⟩
    · rintro ⟨h1, h2, h3⟩
      exact ⟨⟨h1, h2⟩, by simpa using h3 hx⟩
  · simp only [List.mem_filter]
    constructor
    · rintro ⟨h1, h2⟩
      exact ⟨h1, h2, fun hc => absurd hc (by simp [hx])⟩
    · rintro ⟨h1, h2, -⟩
      exact ⟨h1, h2⟩

/-- The conflicts queryset is empty iff no non-excluded pending/confirmed
booking overlaps the half-open window (ids are positive, as in Django). -/
lemma cfaConflicts_eq_nil_iff (bookings : List BookingRec) (s e : ℤ)
    (excl : Option ℕ) (hids : ∀ b ∈ bookings, b.id ≠ 0) :
    cfaConflicts bookings s e excl = [] ↔
      (∀ b ∈ bookings, excl ≠ some b.id →
        (b.status = BStatus.pending ∨ b.status = BStatus.confirmed) →
        ¬(b.start_time < e ∧ s < b.end_time)) := by
  rw [List.eq_nil_iff_forall_not_mem]
  constructor
  · intro h b hb hne hst hov
    refine h b (mem_cfaConflicts_iff.mpr
      ⟨hb, (competitor_overlap_iff s e b).mpr ⟨hst, hov⟩, ?_⟩)
    intro _ hc
    exact hne hc.symm
  · intro h b hmem
    obtain ⟨hb, hpred, hexcl⟩ := mem_cfaConflicts_iff.mp hmem
    obtain ⟨hst, hov⟩ := (competitor_overlap_iff s e b).mp hpred
    have hne : excl ≠ some b.id := by
      rcases excl with _ | i
      · exact fun hc => Option.noConfusion hc
      · by_cases hi : i = 0
        · subst hi
          intro hc
          exact hids b hb (by simpa using hc.symm)
        · have ht : exclTruthy (some i) = true := by
            simp [exclTruthy, hi]
          have hx := hexcl ht
          exact fun hc => hx hc.symm
    exact (h b hb hne hst) hov

/-- C1: for a window with start < end (and Django's positive primary keys),
`check_field_availability` reports available exactly when the field is active
and available and no pending/confirmed booking other than the excluded one
overlaps the half-open window; an inactive or unavailable field yields
available = false with empty conflicts and suggestions; a booking ending at
or before the requested start (in particular exactly at it) never appears as
a conflict. -/
theorem check_field_availability_correct (f : Field) (bookings : List BookingRec)
    (s e : ℤ) (excl : Option ℕ)
    (hse : s < e) (hids : ∀ b ∈ bookings, b.id ≠ 0) :
    ((check_field_availability f bookings s e excl).available = true ↔
      (f.is_active = true ∧ f.is_available = true ∧
        ∀ b ∈ bookings, excl ≠ some b.id →
          (b.status = BStatus.pending ∨ b.status = BStatus.confirmed) →
          ¬(b.start_time < e ∧ s < b.end_time))) ∧
    (f.is_active = false ∨ f.is_available = false →
      (check_field_availability f bookings s e excl).available = false ∧
      (check_field_availability f bookings s e excl).conflicts = [] ∧
      (check_field_availability f bookings s e excl).suggestions = []) ∧
    (∀ b ∈ bookings, b.end_time ≤ s →
      b ∉ (check_field_availability f bookings s e excl).conflicts) := by
  have hnil := cfaConflicts_eq_nil_iff bookings s e excl hids
  refine ⟨?_, ?_, ?_⟩
  · by_cases hfa : ¬ (f.is_active = true) ∨ ¬ (f.is_available = true)
    · rw [check_field_availability, if_pos hfa]
      constructor
      · intro h
        exact absurd h (by simp)
      · rintro ⟨h1, h2, -⟩
        rcases hfa with h | h <;> tauto
    · push_neg at hfa
      rw [check_field_availability, if_neg (by tauto)]
      split_ifs with hc
      · constructor
        · intro h
          exact absurd h (by simp)
        · rintro ⟨-, -, hno⟩
          exact hc (hnil.mpr hno)
      · simp only [ne_eq, not_not] at hc
        constructor
        · intro _
          exact ⟨hfa.1, hfa.2, hnil.mp hc⟩
        · intro _
          rfl
  · intro hfa
    have hfa2 : ¬ (f.is_active = true) ∨ ¬ (f.is_available = true) := by
      rcases hfa with h | h <;> simp [h]
    rw [check_field_availability, if_pos hfa2]
    exact ⟨rfl, rfl, rfl⟩
  · intro b hb hend
    by_cases hfa : ¬ (f.is_active = true) ∨ ¬ (f.is_available = true)
    · rw [check_field_availability, if_pos hfa]
      simp
    · rw [check_field_availability, if_neg hfa]
      split_ifs with hc
      · intro hmem
        have h2 := (mem_cfaConflicts hmem).2
        have hov := ((competitor_overlap_iff s e b).mp h2).2
        omega
      · simp

/-- Witness for C1: a field with a confirmed 10:00-12:00 booking is reported
unavailable for 11:00-13:00, per the proved characterisation. -/
theorem check_field_availability_correct_witness :
    ((check_field_availability ⟨true, true, 50⟩
        [⟨1, BStatus.confirmed, 600, 720⟩] 660 780 none).available = true ↔
      ((true : Bool) = true ∧ (true : Bool) = true ∧
        ∀ b ∈ [(⟨1, BStatus.confirmed, 600, 720⟩ : BookingRec)],
          (none : Option ℕ) ≠ some b.id →
          (b.status = BStatus.pending ∨ b.status = BStatus.confirmed) →
          ¬(b.start_time < 780 ∧ 660 < b.end_time))) :=
  (check_field_availability_correct ⟨true, true, 50⟩
    [⟨1, BStatus.confirmed, 600, 720⟩] 660 780 none (by decide)
    (by decide)).1

/-- C3: on an active, available, conflict-free field, serializer validation
accepts a window exactly when its duration is between 1 and 8 hours inclusive
and it starts strictly after now and at most 90 days ahead. -/
theorem serializer_validate_window_rules (f : Field) (bookings : List BookingRec)
    (instanceId : Option ℕ) (now s e : ℤ)
    (hact : f.is_active = true) (hav : f.is_available = true)
    (hnc : serializerConflicts bookings instanceId s e = []) :
    serializerValidate f bookings instanceId now s e = Except.ok () ↔
      (60 ≤ e - s ∧ e - s ≤ 480 ∧ now < s ∧ s ≤ now + 90 * 1440) := by
  unfold serializerValidate
  split_ifs with h1 h2 h3 h4 h5 h6 h7
  · exact iff_of_false (by simp) (by omega)
  · exact iff_of_false (by simp) (by omega)
  · exact iff_of_false (by simp) (by omega)
  · exact iff_of_false (by simp) (by omega)
  · exact iff_of_false (by simp) (by omega)
  · exact absurd h6 (by simp [hact, hav])
  · exact absurd hnc h7
  · exact iff_of_true rfl (by omega)

/-- Witness for C3: a 2-hour booking starting tomorrow is accepted. -/
theorem serializer_validate_window_rules_witness :
    serializerValidate ⟨true, true, 50⟩ [] none 0 1440 1560 = Except.ok () ↔
      (60 ≤ (1560 : ℤ) - 1440 ∧ (1560 : ℤ) - 1440 ≤ 480 ∧ (0 : ℤ) < 1440 ∧
        (1440 : ℤ) ≤ 0 + 90 * 1440) :=
  serializer_validate_window_rules ⟨true, true, 50⟩ [] none 0 1440 1560
    rfl rfl rfl

/-- C10: the GET availability endpoint ignores `is_active`: an inactive but
available field with no overlapping pending/confirmed booking is reported
available by the endpoint while `check_field_availability` reports it
unavailable. -/
theorem endpoint_ignores_is_active (f : Field) (bookings : List BookingRec)
    (s e : ℤ) (hse : s < e) (hact : f.is_active = false)
    (hav : f.is_available = true)
    (hno : ∀ b ∈ bookings,
      ¬((b.status = BStatus.pending ∨ b.status = BStatus.confirmed) ∧
        (b.start_time < e ∧ s < b.end_time))) :
    availabilityEndpointAvailable f bookings s e = true ∧
    (check_field_availability f bookings s e none).available = false := by
  constructor
  · have hany : (bookings.any fun b =>
        isCompetitor b && checkerOverlap s e b.start_time b.end_time) = false := by
      rw [List.any_eq_false]
      intro b hb hc
      exact hno b hb ((competitor_overlap_iff s e b).mp hc)
    unfold availabilityEndpointAvailable
    rw [hany, hav]
    rfl
  · rw [check_field_availability, if_pos (by simp [hact])]

/-- Witness for C10 on an inactive field whose only booking is cancelled. -/
theorem endpoint_ignores_is_active_witness :
    availabilityEndpointAvailable ⟨false, true, 50⟩
      [⟨1, BStatus.cancelled, 0, 60⟩] 0 60 = true ∧
    (check_field_availability ⟨false, true, 50⟩
      [⟨1, BStatus.cancelled, 0, 60⟩] 0 60 none).available = false :=
  endpoint_ignores_is_active ⟨false, true, 50⟩ [⟨1, BStatus.cancelled, 0, 60⟩]
    0 60 (by decide) rfl rfl (by decide)

/-- Booked minutes summed then divided by 60 equal the sum of per-booking
hours. -/
lemma sum_minutes_div_sixty (l : List BookingRec) :
    (((l.map fun b => b.end_time - b.start_time).sum : ℤ) : ℚ) / 60 =
      (l.map fun b => ((b.end_time - b.start_time : ℤ) : ℚ) / 60).sum := by
  induction l with
  | nil => simp
  | cons b t ih =>
    have hsplit :
        ((((b.end_time - b.start_time) +
            (t.map fun b => b.end_time - b.start_time).sum : ℤ)) : ℚ) / 60 =
          ((b.end_time - b.start_time : ℤ) : ℚ) / 60 +
            (((t.map fun b => b.end_time - b.start_time).sum : ℤ) : ℚ) / 60 := by
      push_cast
      ring
    simp only [List.map_cons, List.sum_cons]
    rw [hsplit, ih]

/-- C9: the utilization rate equals booked hours over 14 available hours per
day of the inclusive D-day range, as a percentage rounded to 2 decimals, with
`total_available_hours = D × 14`, D = 30 when no range is given, and rate 0
when the denominator is not positive. -/
theorem utilization_rate_formula (bs : List BookingRec) :
    (∀ sd ed : ℤ,
      (get_field_utilization_rate bs (some sd) (some ed)).total_available_hours =
        (ed - sd + 1) * 14 ∧
      (get_field_utilization_rate bs (some sd) (some ed)).utilization_rate =
        (if 0 < (ed - sd + 1) * 14 then
          roundTo2 ((((utilizationCounted bs (some sd) (some ed)).map
              fun b => ((b.end_time - b.start_time : ℤ) : ℚ) / 60).sum /
            (((ed - sd + 1) * 14 : ℤ) : ℚ) * 100))
        else 0)) ∧
    ((get_field_utilization_rate bs none none).total_available_hours = 30 * 14 ∧
      (get_field_utilization_rate bs none none).utilization_rate =
        roundTo2 ((((utilizationCounted bs none none).map
            fun b => ((b.end_time - b.start_time : ℤ) : ℚ) / 60).sum / 420 * 100))) := by
  have hzero : roundTo2 0 = 0 := by
    norm_num [roundTo2, roundHalfEvenQ]
  constructor
  · intro sd ed
    refine ⟨rfl, ?_⟩
    simp only [get_field_utilization_rate]
    rw [← sum_minutes_div_sixty]
    split_ifs with h
    · rfl
    · exact hzero
  · refine ⟨rfl, ?_⟩
    simp only [get_field_utilization_rate]
    rw [← sum_minutes_div_sixty]
    rw [if_pos (by norm_num)]
    norm_num

/-- C4 counterexample: a valid 100-minute (6000-second) booking at hourly
rate 3 is charged Decimal("1.6666666666666667") × 3 = 5.0000000000000001
rather than the exact (6000/3600) × 3 = 5 — the float division
`total_seconds() / 3600` does round. -/
theorem total_cost_float_counterexample :
    pyTotalCost 6000 3 ≠ exactTotalCost 6000 3 := by
  have h : floatStr (pyDurationHours 6000) = (16666666666666667, 10000000000000000) := by
    decide
  rw [pyTotalCost, if_neg (by decide), show (6000 : ℤ).natAbs = 6000 from rfl,
    exactTotalCost]
  simp only [pyHoursDecimal, h]
  norm_num

/-- The 29 quarter-hour durations from 1 h to 8 h survive the float
round-trip: `Decimal(str(s/3600))` equals s/3600 exactly. -/
lemma quarter_hour_roundtrip : ∀ j : Fin 29,
    (floatStr (pyDurationHours (900 * (j.val + 4)))).1 * 3600 =
      900 * (j.val + 4) * (floatStr (pyDurationHours (900 * (j.val + 4)))).2 ∧
    (floatStr (pyDurationHours (900 * (j.val + 4)))).2 ≠ 0 := by
  decide

/-- C4 amended: the stored cost is Decimal(str(duration-hours-as-float)) ×
hourly_rate; for every whole-quarter-hour duration between 1 h and 8 h the
float value round-trips exactly, so the cost equals the exact rational
product; an update presenting none of field/start_time/end_time leaves
total_cost untouched, while presenting them recomputes it by the same float
formula. -/
theorem total_cost_float_semantics :
    (∀ k : ℤ, 4 ≤ k → k ≤ 32 → ∀ rate : ℚ,
      pyTotalCost (900 * k) rate = exactTotalCost (900 * k) rate) ∧
    (∀ inst : BookingInst, serializerUpdate inst none none none = inst) ∧
    (∀ (inst : BookingInst) (rate : ℚ) (ns ne2 : ℤ),
      (serializerUpdate inst (some rate) (some ns) (some ne2)).total_cost =
        pyTotalCost (ne2 - ns) rate) := by
  refine ⟨?_, fun inst => rfl, fun inst rate ns ne2 => rfl⟩
  intro k hk4 hk32 rate
  have hj : k.toNat - 4 < 29 := by omega
  have hk := quarter_hour_roundtrip ⟨k.toNat - 4, hj⟩
  have hval : (⟨k.toNat - 4, hj⟩ : Fin 29).val + 4 = k.toNat := by
    simp only []
    omega
  rw [hval] at hk
  have habs : (900 * k).natAbs = 900 * k.toNat := by omega
  have hneg : ¬ (900 * k < 0) := by omega
  rw [pyTotalCost, if_neg hneg, habs, exactTotalCost]
  have hden : (((floatStr (pyDurationHours (900 * k.toNat))).2 : ℕ) : ℚ) ≠ 0 := by
    exact_mod_cast hk.2
  have hq : pyHoursDecimal (900 * k.toNat) = ((900 * k.toNat : ℕ) : ℚ) / 3600 := by
    rw [pyHoursDecimal]
    rw [div_eq_div_iff hden (by norm_num)]
    exact_mod_cast hk.1
  rw [hq]
  have hcast : ((900 * k.toNat : ℕ) : ℚ) = ((900 * k : ℤ) : ℚ) := by
    have hz : ((900 * k.toNat : ℕ) : ℤ) = 900 * k := by omega
    exact_mod_cast congrArg (fun z : ℤ => (z : ℚ)) hz
  rw [hcast]

/-- Witness for C4 at a 1-hour booking with hourly rate 50. -/
theorem total_cost_float_semantics_witness :
    pyTotalCost (900 * 4) 50 = exactTotalCost (900 * 4) 50 :=
  total_cost_float_semantics.1 4 (by decide) (by decide) 50

/-- A finished (post-`break`) state absorbs one loop step. -/
lemma scanStep_done (dur : ℤ) (st : ScanState) (b : BookingRec)
    (h : st.done = true) : scanStep dur st b = st := by
  simp [scanStep, h]

/-- A finished (post-`break`) state absorbs the rest of the loop. -/
lemma foldl_scanStep_done (dur : ℤ) (l : List BookingRec) (st : ScanState)
    (h : st.done = true) : l.foldl (scanStep dur) st = st := by
  induction l with
  | nil => rfl
  | cons b t ih => rw [List.foldl_cons, scanStep_done dur st b h, ih]

/-- Invariants of the suggestion-scan loop over a start-ordered booking list:
the accumulator never exceeds three entries (exactly three after a break),
the cursor only moves forward and (absent a break) ends past every booking's
end, and every emitted suggestion has exactly the requested duration, starts
at or after the initial cursor, ends no later than the start of some scanned
booking, and overlaps no scanned booking. -/
lemma scan_foldl_spec (dur : ℤ) :
    ∀ (l : List BookingRec) (st : ScanState),
      l.Pairwise (fun a b => a.start_time ≤ b.start_time) →
      (st.done = false → st.suggestions.length < 3) →
      (st.done = true → st.suggestions.length = 3) →
      ((l.foldl (scanStep dur) st).done = false →
        (l.foldl (scanStep dur) st).suggestions.length < 3) ∧
      ((l.foldl (scanStep dur) st).done = true →
        (l.foldl (scanStep dur) st).suggestions.length = 3) ∧
      st.cursor ≤ (l.foldl (scanStep dur) st).cursor ∧
      ((l.foldl (scanStep dur) st).done = false →
        ∀ b ∈ l, b.end_time ≤ (l.foldl (scanStep dur) st).cursor) ∧
      ∃ news, (l.foldl (scanStep dur) st).suggestions = st.suggestions ++ news ∧
        ∀ sug ∈ news,
          sug.end_time = sug.start_time + dur ∧
          st.cursor ≤ sug.start_time ∧
          (∃ b ∈ l, sug.end_time ≤ b.start_time) ∧
          (∀ b ∈ l, ¬(b.start_time < sug.end_time ∧ sug.start_time < b.end_time)) := by
  intro l
  induction l with
  | nil =>
    intro st hp hlt heq
    exact ⟨hlt, heq, le_refl _, by simp, ⟨[], by simp, by simp⟩⟩
  | cons b t ih =>
    intro st hp hlt heq
    rw [List.foldl_cons]
    obtain ⟨hpb, hpt⟩ := List.pairwise_cons.mp hp
    cases hdone : st.done with
    | true =>
      rw [scanStep_done dur st b hdone, foldl_scanStep_done dur t st hdone]
      refine ⟨hlt, heq, le_refl _, fun hf => ?_, ⟨[], by simp, by simp⟩⟩
      rw [hf] at hdone
      exact absurd hdone (by simp)
    | false =>
      have hlen := hlt hdone
      by_cases hc : (b.start_time > st.cursor ∧ b.start_time - st.cursor ≥ dur)
      · by_cases h3 :
            3 ≤ (st.suggestions ++ [(⟨st.cursor, st.cursor + dur⟩ : Suggestion)]).length
        · -- emission then break
          have hstep : scanStep dur st b =
              ⟨st.suggestions ++ [⟨st.cursor, st.cursor + dur⟩], st.cursor, true⟩ := by
            simp only [scanStep]
            rw [if_neg (by simp [hdone]), if_pos hc, if_pos h3]
          rw [hstep, foldl_scanStep_done dur t _ rfl]
          refine ⟨fun hf => absurd hf (by simp), fun _ => ?_, le_refl _,
            fun hf => absurd hf (by simp),
            ⟨[⟨st.cursor, st.cursor + dur⟩], rfl, ?_⟩⟩
          · simp only [List.length_append, List.length_cons, List.length_nil] at h3 ⊢
            omega
          · intro sug hsug
            rw [List.mem_singleton] at hsug
            subst hsug
            refine ⟨rfl, le_refl _, ⟨b, List.mem_cons_self b t, by simp; omega⟩, ?_⟩
            intro b2 hb2
            rcases List.mem_cons.mp hb2 with rfl | hb2
            · simp only []
              omega
            · have := hpb b2 hb2
              simp only []
              omega
        · -- emission, no break
          have hstep : scanStep dur st b =
              ⟨st.suggestions ++ [⟨st.cursor, st.cursor + dur⟩],
                max st.cursor b.end_time, false⟩ := by
            simp only [scanStep]
            rw [if_neg (by simp [hdone]), if_pos hc, if_neg h3]
          rw [hstep]
          have hlen1 : (st.suggestions ++
              [(⟨st.cursor, st.cursor + dur⟩ : Suggestion)]).length < 3 := by
            omega
          obtain ⟨ihlt, iheq, ihcur, ihends, news', hnews', hprops'⟩ :=
            ih ⟨st.suggestions ++ [⟨st.cursor, st.cursor + dur⟩],
              max st.cursor b.end_time, false⟩ hpt (fun _ => hlen1)
              (fun hf => absurd hf (by simp))
          refine ⟨ihlt, iheq, ?_, ?_, ⟨⟨st.cursor, st.cursor + dur⟩ :: news', ?_, ?_⟩⟩
          · exact le_trans (le_max_left _ _) ihcur
          · intro hf b2 hb2
            rcases List.mem_cons.mp hb2 with rfl | hb2
            · exact le_trans (le_max_right _ _) ihcur
            · exact ihends hf b2 hb2
          · rw [hnews']
            simp
          · intro sug hsug
            rcases List.mem_cons.mp hsug with rfl | hsug
            · refine ⟨rfl, le_refl _, ⟨b, List.mem_cons_self b t, by simp; omega⟩, ?_⟩
              intro b2 hb2
              rcases List.mem_cons.mp hb2 with rfl | hb2
              · simp only []
                omega
              · have := hpb b2 hb2
                simp only []
                omega
            · obtain ⟨hd, hcur', hex, hov⟩ := hprops' sug hsug
              refine ⟨hd, le_trans (le_trans (le_max_left _ _) (le_refl _)) hcur', ?_, ?_⟩
              · obtain ⟨b2, hb2, hb2e⟩ := hex
                exact ⟨b2, List.mem_cons_of_mem b hb2, hb2e⟩
              · intro b2 hb2
                rcases List.mem_cons.mp hb2 with rfl | hb2
                · have hmax : b2.end_time ≤ max st.cursor b2.end_time :=
                    le_max_right _ _
                  have : max st.cursor b2.end_time ≤ sug.start_time := hcur'
                  omega
                · exact hov b2 hb2
      · -- no emission
        have hstep : scanStep dur st b =
            ⟨st.suggestions, max st.cursor b.end_time, false⟩ := by
          simp only [scanStep]
          rw [if_neg (by simp [hdone]), if_neg hc]
        rw [hstep]
        obtain ⟨ihlt, iheq, ihcur, ihends, news', hnews', hprops'⟩ :=
          ih ⟨st.suggestions, max st.cursor b.end_time, false⟩ hpt (fun _ => hlen)
            (fun hf => absurd hf (by simp))
        refine ⟨ihlt, iheq, le_trans (le_max_left _ _) ihcur, ?_,
          ⟨news', hnews', ?_⟩⟩
        · intro hf b2 hb2
          rcases List.mem_cons.mp hb2 with rfl | hb2
          · exact le_trans (le_max_right _ _) ihcur
          · exact ihends hf b2 hb2
        · intro sug hsug
          obtain ⟨hd, hcur', hex, hov⟩ := hprops' sug hsug
          refine ⟨hd, le_trans (le_max_left _ _) hcur', ?_, ?_⟩
          · obtain ⟨b2, hb2, hb2e⟩ := hex
            exact ⟨b2, List.mem_cons_of_mem b hb2, hb2e⟩
          · intro b2 hb2
            rcases List.mem_cons.mp hb2 with rfl | hb2
            · have hmax : b2.end_time ≤ max st.cursor b2.end_time := le_max_right _ _
              have : max st.cursor b2.end_time ≤ sug.start_time := hcur'
              omega
            · exact hov b2 hb2

/-- Two loop iterations over bookings with the same start time commute (their
ends exceed that start, so at most the first of the two can emit, and the
emitted slot and the final cursor do not depend on the order). -/
lemma scanStep_comm (dur : ℤ) (st : ScanState) (x y : BookingRec)
    (hxy : x.start_time = y.start_time)
    (hx : x.start_time < x.end_time) (hy : y.start_time < y.end_time) :
    scanStep dur (scanStep dur st x) y = scanStep dur (scanStep dur st y) x := by
  cases hdone : st.done with
  | true =>
    simp only [scanStep_done dur st x hdone, scanStep_done dur st y hdone]
  | false =>
    have hcy : (y.start_time > st.cursor ∧ y.start_time - st.cursor ≥ dur) ↔
        (x.start_time > st.cursor ∧ x.start_time - st.cursor ≥ dur) := by
      rw [hxy]
    by_cases hc : (x.start_time > st.cursor ∧ x.start_time - st.cursor ≥ dur)
    · by_cases h3 :
          3 ≤ (st.suggestions ++ [(⟨st.cursor, st.cursor + dur⟩ : Suggestion)]).length
      · have hx1 : scanStep dur st x =
            ⟨st.suggestions ++ [⟨st.cursor, st.cursor + dur⟩], st.cursor, true⟩ := by
          simp only [scanStep]
          rw [if_neg (by simp [hdone]), if_pos hc, if_pos h3]
        have hy1 : scanStep dur st y =
            ⟨st.suggestions ++ [⟨st.cursor, st.cursor + dur⟩], st.cursor, true⟩ := by
          simp only [scanStep]
          rw [if_neg (by simp [hdone]), if_pos (hcy.mpr hc), if_pos h3]
        rw [hx1, hy1, scanStep_done dur _ y rfl, scanStep_done dur _ x rfl]
      · have hx1 : scanStep dur st x =
            ⟨st.suggestions ++ [⟨st.cursor, st.cursor + dur⟩],
              max st.cursor x.end_time, false⟩ := by
          simp only [scanStep]
          rw [if_neg (by simp [hdone]), if_pos hc, if_neg h3]
        have hy1 : scanStep dur st y =
            ⟨st.suggestions ++ [⟨st.cursor, st.cursor + dur⟩],
              max st.cursor y.end_time, false⟩ := by
          simp only [scanStep]
          rw [if_neg (by simp [hdone]), if_pos (hcy.mpr hc), if_neg h3]
        rw [hx1, hy1]
        have h2x : scanStep dur
            (⟨st.suggestions ++ [⟨st.cursor, st.cursor + dur⟩],
              max st.cursor x.end_time, false⟩ : ScanState) y =
            ⟨st.suggestions ++ [⟨st.cursor, st.cursor + dur⟩],
              max (max st.cursor x.end_time) y.end_time, false⟩ := by
          simp only [scanStep]
          rw [if_neg (by decide), if_neg (show ¬(y.start_time >
            max st.cursor x.end_time ∧
            y.start_time - max st.cursor x.end_time ≥ dur) by omega)]
        have h2y : scanStep dur
            (⟨st.suggestions ++ [⟨st.cursor, st.cursor + dur⟩],
              max st.cursor y.end_time, false⟩ : ScanState) x =
            ⟨st.suggestions ++ [⟨st.cursor, st.cursor + dur⟩],
              max (max st.cursor y.end_time) x.end_time, false⟩ := by
          simp only [scanStep]
          rw [if_neg (by decide), if_neg (show ¬(x.start_time >
            max st.cursor y.end_time ∧
            x.start_time - max st.cursor y.end_time ≥ dur) by omega)]
        rw [h2x, h2y]
        simp only [ScanState.mk.injEq]
        refine ⟨trivial, by omega, trivial⟩
    · have hx1 : scanStep dur st x =
          ⟨st.suggestions, max st.cursor x.end_time, false⟩ := by
        simp only [scanStep]
        rw [if_neg (by simp [hdone]), if_neg hc]
      have hy1 : scanStep dur st y =
          ⟨st.suggestions, max st.cursor y.end_time, false⟩ := by
        simp only [scanStep]
        rw [if_neg (by simp [hdone]), if_neg (fun h => hc (hcy.mp h))]
      rw [hx1, hy1]
      have h2x : scanStep dur
          (⟨st.suggestions, max st.cursor x.end_time, false⟩ : ScanState) y =
          ⟨st.suggestions, max (max st.cursor x.end_time) y.end_time, false⟩ := by
        simp only [scanStep]
        rw [if_neg (by decide), if_neg (show ¬(y.start_time >
          max st.cursor x.end_time ∧
          y.start_time - max st.cursor x.end_time ≥ dur) by omega)]
      have h2y : scanStep dur
          (⟨st.suggestions, max st.cursor y.end_time, false⟩ : ScanState) x =
          ⟨st.suggestions, max (max st.cursor y.end_time) x.end_time, false⟩ := by
        simp only [scanStep]
        rw [if_neg (by decide), if_neg (show ¬(x.start_time >
          max st.cursor y.end_time ∧
          x.start_time - max st.cursor y.end_time ≥ dur) by omega)]
      rw [h2x, h2y]
      simp only [ScanState.mk.injEq]
      refine ⟨trivial, by omega, trivial⟩

/-- The scan is a function of the booking multiset: any two start-ordered
orderings of the same bookings (each with end after start) drive the loop to
the same state. -/
lemma scan_foldl_perm (dur : ℤ) :
    ∀ (n : ℕ) (l1 l2 : List BookingRec), l1.length ≤ n → l1.Perm l2 →
      l1.Pairwise (fun a b => a.start_time ≤ b.start_time) →
      l2.Pairwise (fun a b => a.start_time ≤ b.start_time) →
      (∀ b ∈ l1, b.start_time < b.end_time) →
      ∀ st, l1.foldl (scanStep dur) st = l2.foldl (scanStep dur) st := by
  intro n
  induction n with
  | zero =>
    intro l1 l2 hlen hperm _ _ _ st
    have h1 : l1 = [] := List.length_eq_zero.mp (Nat.le_zero.mp hlen)
    subst h1
    rw [hperm.symm.eq_nil]
  | succ n ihn =>
    intro l1 l2 hlen hperm hp1 hp2 hends st
    cases l1 with
    | nil =>
      rw [hperm.symm.eq_nil]
    | cons x t1 =>
      cases l2 with
      | nil => exact absurd hperm.eq_nil (by simp)
      | cons y t2 =>
        have hlent1 : t1.length ≤ n := by
          simpa using Nat.le_of_succ_le_succ (by simpa using hlen)
        by_cases hxyeq : x = y
        · subst hxyeq
          have hperm' : t1.Perm t2 := hperm.cons_inv
          rw [List.foldl_cons, List.foldl_cons]
          exact ihn t1 t2 hlent1 hperm' (List.pairwise_cons.mp hp1).2
            (List.pairwise_cons.mp hp2).2
            (fun b hb => hends b (List.mem_cons_of_mem _ hb)) (scanStep dur st x)
        · have hyt1 : y ∈ t1 := by
            have hmem : y ∈ x :: t1 := hperm.mem_iff.mpr (List.mem_cons_self y t2)
            rcases List.mem_cons.mp hmem with h | h
            · exact absurd h.symm hxyeq
            · exact h
          have hxt2 : x ∈ t2 := by
            have hmem : x ∈ y :: t2 := hperm.mem_iff.mp (List.mem_cons_self x t1)
            rcases List.mem_cons.mp hmem with h | h
            · exact absurd h hxyeq
            · exact h
          have hxs : x.start_time = y.start_time := by
            have h1 : x.start_time ≤ y.start_time := (List.pairwise_cons.mp hp1).1 y hyt1
            have h2 : y.start_time ≤ x.start_time := (List.pairwise_cons.mp hp2).1 x hxt2
            omega
          have hpt1 : t1.Perm (y :: t1.erase y) := List.perm_cons_erase hyt1
          have hsorted_t1 := (List.pairwise_cons.mp hp1).2
          have hsorted_e : (t1.erase y).Pairwise
              (fun a b => a.start_time ≤ b.start_time) :=
            List.Pairwise.sublist (List.erase_sublist y t1) hsorted_t1
          have hmem_erase : ∀ b ∈ t1.erase y, b ∈ t1 :=
            fun b hb => List.Sublist.mem hb (List.erase_sublist y t1)
          have hsorted_ye : (y :: t1.erase y).Pairwise
              (fun a b => a.start_time ≤ b.start_time) := by
            rw [List.pairwise_cons]
            refine ⟨fun b hb => ?_, hsorted_e⟩
            rw [← hxs]
            exact (List.pairwise_cons.mp hp1).1 b (hmem_erase b hb)
          have hsorted_xe : (x :: t1.erase y).Pairwise
              (fun a b => a.start_time ≤ b.start_time) := by
            rw [List.pairwise_cons]
            exact ⟨fun b hb => (List.pairwise_cons.mp hp1).1 b (hmem_erase b hb),
              hsorted_e⟩
          have hends_t1 : ∀ b ∈ t1, b.start_time < b.end_time :=
            fun b hb => hends b (List.mem_cons_of_mem _ hb)
          have hends_ye : ∀ b ∈ y :: t1.erase y, b.start_time < b.end_time :=
            fun b hb => hends_t1 b (hpt1.mem_iff.mpr hb)
          have hpt2 : t2.Perm (x :: t1.erase y) := by
            have h1 : (x :: t1).Perm (x :: y :: t1.erase y) := hpt1.cons x
            have h2 : (y :: x :: t1.erase y).Perm (x :: y :: t1.erase y) :=
              List.Perm.swap x y (t1.erase y)
            have h3 : (y :: t2).Perm (y :: x :: t1.erase y) :=
              hperm.symm.trans (h1.trans h2.symm)
            exact h3.cons_inv
          have hlent2 : t2.length ≤ n := by
            have := hperm.length_eq
            simp only [List.length_cons] at this
            omega
          have hends_t2 : ∀ b ∈ t2, b.start_time < b.end_time := by
            intro b hb
            have : b ∈ x :: t1 := hperm.mem_iff.mpr (List.mem_cons_of_mem y hb)
            exact hends b this
          have hstep1 : t1.foldl (scanStep dur) (scanStep dur st x) =
              (y :: t1.erase y).foldl (scanStep dur) (scanStep dur st x) :=
            ihn t1 _ hlent1 hpt1 hsorted_t1 hsorted_ye hends_t1 _
          have hswap : scanStep dur (scanStep dur st x) y =
              scanStep dur (scanStep dur st y) x :=
            scanStep_comm dur st x y hxs (hends x (List.mem_cons_self x t1))
              (hends_t1 y hyt1)
          have hstep2 : t2.foldl (scanStep dur) (scanStep dur st y) =
              (x :: t1.erase y).foldl (scanStep dur) (scanStep dur st y) :=
            ihn t2 _ hlent2 hpt2 (List.pairwise_cons.mp hp2).2 hsorted_xe hends_t2 _
          calc (x :: t1).foldl (scanStep dur) st
              = t1.foldl (scanStep dur) (scanStep dur st x) := rfl
            _ = (y :: t1.erase y).foldl (scanStep dur) (scanStep dur st x) := hstep1
            _ = (t1.erase y).foldl (scanStep dur)
                  (scanStep dur (scanStep dur st x) y) := rfl
            _ = (t1.erase y).foldl (scanStep dur)
                  (scanStep dur (scanStep dur st y) x) := by rw [hswap]
            _ = (x :: t1.erase y).foldl (scanStep dur) (scanStep dur st y) := rfl
            _ = t2.foldl (scanStep dur) (scanStep dur st y) := hstep2.symm
            _ = (y :: t2).foldl (scanStep dur) st := rfl

/-- Concrete field for the C8 instances. -/
def c8Field : Field := ⟨true, true, 50⟩

/-- Concrete same-day bookings (minutes from a day boundary): a confirmed
15:00-22:00 booking and a confirmed 23:30-00:30 booking. -/
def c8Bookings : List BookingRec :=
  [⟨1, BStatus.confirmed, 900, 1320⟩, ⟨2, BStatus.confirmed, 1410, 1470⟩]

/-- C8 counterexample: requesting 16:00-17:00 conflicts with the first
booking, and the scan emits the suggestion 22:00-23:00 — inside the gap
before the 23:30 booking but ending after the 22:00 close of the operating
window, so the claimed 08:00-22:00 containment of every entry is false. -/
theorem suggestion_window_counterexample :
    (check_field_availability c8Field c8Bookings 960 1020 none).conflicts ≠ [] ∧
    (⟨1320, 1380⟩ : Suggestion) ∈
      (check_field_availability c8Field c8Bookings 960 1020 none).suggestions ∧
    ¬((1380 : ℤ) ≤ dayEnd22 960) := by
  decide

/-- C8 amended: whenever `check_field_availability` finds conflicts, the
returned suggestion list is the greedy single chronological pass over that
day's pending/confirmed bookings: at most 3 entries; each entry spans exactly
the requested duration; each entry starts at or after 08:00 of the requested
day; each entry ends by 22:00 or else ends no later than the start of some
same-day pending/confirmed booking (it can end beyond 22:00 exactly in that
cut-to-a-late-booking case); no entry overlaps (half-open) any same-day
pending/confirmed booking; and the list is the same for every start-ordered
enumeration the database may deliver of that day's bookings. -/
theorem suggestion_scan_properties (f : Field) (bookings : List BookingRec)
    (s e : ℤ) (excl : Option ℕ) (r : AvailabilityResult)
    (hr : r = check_field_availability f bookings s e excl)
    (hends : ∀ b ∈ bookings, b.start_time < b.end_time)
    (hconf : r.conflicts ≠ []) :
    r.suggestions.length ≤ 3 ∧
    (∀ sug ∈ r.suggestions, sug.end_time - sug.start_time = e - s) ∧
    (∀ sug ∈ r.suggestions, dayStart8 s ≤ sug.start_time) ∧
    (∀ sug ∈ r.suggestions, sug.end_time ≤ dayEnd22 s ∨
      ∃ b ∈ bookings, (isCompetitor b && sameDay s b) = true ∧
        sug.end_time ≤ b.start_time) ∧
    (∀ sug ∈ r.suggestions, ∀ b ∈ bookings,
      (isCompetitor b && sameDay s b) = true →
      ¬(b.start_time < sug.end_time ∧ sug.start_time < b.end_time)) ∧
    (∀ l : List BookingRec,
      l.Perm (bookings.filter fun b => isCompetitor b && sameDay s b) →
      l.Pairwise (fun a b => a.start_time ≤ b.start_time) →
      generateTimeSuggestions s e l = r.suggestions) := by
  have hsugg : r.suggestions =
      generateTimeSuggestions s e (dayCompetitors bookings s) := by
    by_cases hfa : ¬ f.is_active ∨ ¬ f.is_available
    · rw [check_field_availability, if_pos hfa] at hr
      rw [hr] at hconf
      exact absurd rfl hconf
    · rw [check_field_availability, if_neg hfa] at hr
      split_ifs at hr with hc
      · rw [hr]
      · rw [hr] at hconf
        exact absurd rfl hconf
  haveI : IsTotal BookingRec (fun a b => a.start_time ≤ b.start_time) :=
    ⟨fun a b => le_total _ _⟩
  haveI : IsTrans BookingRec (fun a b => a.start_time ≤ b.start_time) :=
    ⟨fun a b c hab hbc => le_trans hab hbc⟩
  have hsorted : (dayCompetitors bookings s).Pairwise
      (fun a b => a.start_time ≤ b.start_time) :=
    List.sorted_insertionSort _ _
  have hperm0 : (dayCompetitors bookings s).Perm
      (bookings.filter fun b => isCompetitor b && sameDay s b) :=
    List.perm_insertionSort _ _
  have hday_mem : ∀ b ∈ dayCompetitors bookings s,
      b ∈ bookings ∧ (isCompetitor b && sameDay s b) = true :=
    fun b hb => List.mem_filter.mp (hperm0.mem_iff.mp hb)
  have hday_mem2 : ∀ b ∈ bookings, (isCompetitor b && sameDay s b) = true →
      b ∈ dayCompetitors bookings s :=
    fun b hb hpred => hperm0.mem_iff.mpr (List.mem_filter.mpr ⟨hb, hpred⟩)
  have hday_ends : ∀ b ∈ dayCompetitors bookings s, b.start_time < b.end_time :=
    fun b hb => hends b (hday_mem b hb).1
  obtain ⟨hlt, hlen3, hcur, hends2, news, hnews, hprops⟩ :=
    scan_foldl_spec (e - s) (dayCompetitors bookings s) ⟨[], dayStart8 s, false⟩
      hsorted (fun _ => by show (0 : ℕ) < 3; decide)
      (fun h => absurd h Bool.false_ne_true)
  set st2 := (dayCompetitors bookings s).foldl (scanStep (e - s))
    ⟨[], dayStart8 s, false⟩ with hst2
  have hnews' : st2.suggestions = news := by simpa using hnews
  have hgen : generateTimeSuggestions s e (dayCompetitors bookings s) =
      (if st2.cursor + (e - s) ≤ dayEnd22 s ∧ st2.suggestions.length < 3 then
        st2.suggestions ++ [⟨st2.cursor, st2.cursor + (e - s)⟩]
      else st2.suggestions) := by
    simp only [generateTimeSuggestions]
  have hcur0 : dayStart8 s ≤ st2.cursor := hcur
  have hmem_sl : ∀ sug ∈ r.suggestions, sug ∈ news ∨
      (st2.done = false ∧ sug = ⟨st2.cursor, st2.cursor + (e - s)⟩ ∧
        st2.cursor + (e - s) ≤ dayEnd22 s) := by
    intro sug hsug
    rw [hsugg, hgen] at hsug
    split_ifs at hsug with hfin
    · rcases List.mem_append.mp hsug with h | h
      · left
        rw [hnews'] at h
        exact h
      · right
        have hdone : st2.done = false := by
          cases hd : st2.done with
          | false => rfl
          | true =>
            have := hlen3 hd
            omega
        exact ⟨hdone, List.mem_singleton.mp h, hfin.1⟩
    · left
      rw [← hnews']
      exact hsug
  refine ⟨?_, ?_, ?_, ?_, ?_, ?_⟩
  · rw [hsugg, hgen]
    split_ifs with hfin
    · simp only [List.length_append, List.length_cons, List.length_nil]
      omega
    · cases hd : st2.done with
      | false =>
        have := hlt hd
        omega
      | true =>
        have := hlen3 hd
        omega
  · intro sug hsug
    rcases hmem_sl sug hsug with h | ⟨-, hfinal, -⟩
    · have := (hprops sug h).1
      omega
    · subst hfinal
      show st2.cursor + (e - s) - st2.cursor = e - s
      omega
  · intro sug hsug
    rcases hmem_sl sug hsug with h | ⟨-, hfinal, -⟩
    · exact (hprops sug h).2.1
    · subst hfinal
      exact hcur0
  · intro sug hsug
    rcases hmem_sl sug hsug with h | ⟨-, hfinal, hfe⟩
    · obtain ⟨b, hb, hbe⟩ := (hprops sug h).2.2.1
      exact Or.inr ⟨b, (hday_mem b hb).1, (hday_mem b hb).2, hbe⟩
    · subst hfinal
      exact Or.inl hfe
  · intro sug hsug b hb hpredb
    have hbday := hday_mem2 b hb hpredb
    rcases hmem_sl sug hsug with h | ⟨hdone, hfinal, -⟩
    · exact (hprops sug h).2.2.2 b hbday
    · subst hfinal
      have hbe := hends2 hdone b hbday
      show ¬(b.start_time < st2.cursor + (e - s) ∧ st2.cursor < b.end_time)
      omega
  · intro l hpl hsl
    have hperm1 : l.Perm (dayCompetitors bookings s) := hpl.trans hperm0.symm
    have hlends : ∀ b ∈ l, b.start_time < b.end_time := by
      intro b hb
      exact hends b (List.mem_filter.mp (hpl.mem_iff.mp hb)).1
    have hfold := scan_foldl_perm (e - s) l.length l (dayCompetitors bookings s)
      (le_refl _) hperm1 hsl hsorted hlends ⟨[], dayStart8 s, false⟩
    rw [hsugg]
    simp only [generateTimeSuggestions]
    rw [hfold]

/-- Witness for C8 on the concrete conflicted request 16:00-17:00: at most
three suggestions are returned. -/
theorem suggestion_scan_properties_witness :
    (check_field_availability c8Field c8Bookings 960 1020 none).suggestions.length ≤ 3 :=
  (suggestion_scan_properties c8Field c8Bookings 960 1020 none
    (check_field_availability c8Field c8Bookings 960 1020 none) rfl
    (by decide) (by decide)).1

end Theorems

end FootballPlatform
